import Mathlib

/-!
Verification of the lumber-cut bin-packing core (`lumber-cuts.js` and the
unnamed module variant): data model, the best-fit-decreasing packing loop
`solveCuts`, the flat strategy `naiveSolve`, and the part-grouping strategy
`groupedSolve` with its bin-merge phase.

Numbers are modelled as exact rationals (the JavaScript source performs only
additions, subtractions and comparisons on its numeric inputs).
-/

namespace LumberCuts

/-- A `Cut` records a padded cut length and the name of the part it belongs
to; the reserved name "false" marks miscellaneous (ungrouped) cuts, mirroring
the JavaScript object key coercion. -/
structure Cut where
  value : ℚ
  partName : String
deriving DecidableEq, Repr

/-- A bin is an ordered collection of Cuts placed on one piece of lumber. -/
abbrev Bin := List Cut

/-- `sumList`: the JS guard `myList == []` is always false (fresh array
literal), so the function is a plain left fold of addition over the list. -/
def sumList (l : List ℚ) : ℚ := l.foldl (· + ·) 0

/-- `sumCutList(cutList)`: total padded length of the cuts in a bin. -/
def sumCutList (cutList : Bin) : ℚ := sumList (cutList.map Cut.value)

/-- `getBinRemainder(bin)` as closed over `lumberLen` in `solveCuts` and
`groupedSolve`. -/
def getBinRemainder (lumberLen : ℚ) (bin : Bin) : ℚ :=
  lumberLen - sumCutList bin

/-- `sortCutsDesc(cuts)`: JavaScript sorts ascending by `value` with a stable
sort and then reverses, all in place; the value returned is the same (now
descending) array. -/
def sortCutsDesc (cuts : List Cut) : List Cut :=
  (cuts.mergeSort (fun a b => a.value ≤ b.value)).reverse

/-- `Math.min.apply(null, list)` on a non-empty list: fold of binary `min`
over the elements.  (The empty case never arises in `solveCuts`; we return 0
there.) -/
def listMin : List ℚ → ℚ
  | [] => 0
  | x :: xs => xs.foldl min x

/-- One iteration of the placement loop of `solveCuts` for the cut
`nextCut`: compute the remainders of all bins that can still accommodate the
cut; if none can, push a fresh bin holding just this cut; otherwise append
the cut to every bin whose remainder equals the smallest usable remainder
(the JS loop `for (const i in bins)` pushes into each bin whose remainder
matches the minimum; pushing into one bin does not change any other bin's
remainder, so the loop appends exactly to the bins whose remainder was the
minimum). -/
def placeCut (lumberLen : ℚ) (bins : List Bin) (nextCut : Cut) : List Bin :=
  let remainders :=
    (bins.map (getBinRemainder lumberLen)).filter
      (fun v => decide (nextCut.value ≤ v))
  if remainders.isEmpty then
    bins ++ [[nextCut]]
  else
    let m := listMin remainders
    bins.map (fun b => if getBinRemainder lumberLen b = m then b ++ [nextCut] else b)

/-- `solveCuts(cuts, lumberLen, bins)`: sort the cuts in descending order and
place each one in turn.  The JS `bins` parameter is optional
(`bins = bins ?? [[]]`): callers that omit it are modelled by passing
`[[1]] = [[]]`, i.e. a single empty bin; callers that pass a list (possibly
empty) are modelled by that list. -/
def solveCuts (cuts : List Cut) (lumberLen : ℚ) (bins : List Bin) : List Bin :=
  (sortCutsDesc cuts).foldl (placeCut lumberLen) bins

/-- A `CutRequest` models the validated `inputs` object consumed by the two
strategies: the usable (effective) lumber length, the named parts in object
key insertion order, and the miscellaneous (`"false"`-keyed) cut lengths. -/
structure CutRequest where
  effectiveLumberLen : ℚ
  namedParts : List (String × List ℚ)
  misc : List ℚ

/-- The flat list of Cuts built by `naiveSolve`: `Object.keys(inputs.cuts)`
yields the `"false"` key first (it is inserted first by `parseCuts`) followed
by the named parts in insertion order; each part's values are wrapped in
`Cut` objects and the per-part lists are concatenated. -/
def naiveFlatten (r : CutRequest) : List Cut :=
  ((("false", r.misc) :: r.namedParts).map
    (fun p => p.2.map (fun v => Cut.mk v p.1))).flatten

/-- `naiveSolve(inputs)`: flatten all cuts and pack them as one list.  The
call `sortDesc(flattenedVals)` uses the numeric comparator `a - b` on `Cut`
objects, which evaluates to NaN; per the ECMAScript `SortCompare` rule a NaN
comparator result is treated as `+0`, so the stable sort is the identity and
the subsequent `reverse()` reverses the list — modelled by `List.reverse`.
(`solveCuts` re-sorts properly, so this only permutes the input order.) -/
def naiveSolve (r : CutRequest) : List Bin :=
  solveCuts (naiveFlatten r).reverse r.effectiveLumberLen [[]]

/-- The inner `j`-scan of the merge phase of `groupedSolve`: given the bin at
index `i` and the bins after it, find the first later bin whose remainder is
at least `bin`'s used length (`getBinRemainder(bin2) >= lumberLen -
getBinRemainder(bin)`); return it together with the remaining later bins in
order. -/
def scanMerge (lumberLen : ℚ) (bin : Bin) : List Bin → Option (Bin × List Bin)
  | [] => none
  | b2 :: bs =>
    if sumCutList bin ≤ getBinRemainder lumberLen b2 then
      some (b2, bs)
    else
      (scanMerge lumberLen bin bs).map (fun x => (x.1, b2 :: x.2))

/-- One iteration of the outer merge loop at index `i`: if a later bin can
absorb bin `i`'s contents, replace bin `i` with the concatenation and splice
the later bin out; otherwise leave the list unchanged. -/
def mergeStep (lumberLen : ℚ) (bins : List Bin) (i : ℕ) : List Bin :=
  match bins[i]? with
  | none => bins
  | some bin =>
    match scanMerge lumberLen bin (bins.drop (i + 1)) with
    | none => bins
    | some (b2, rest) => bins.take i ++ (bin ++ b2) :: rest

/-- The outer merge loop `for (var i = 0; i < bins.length - 1; i++)` of the
merge phase; `bins.length` may shrink as merges occur and the bound is
re-evaluated each iteration. -/
def mergeLoop (lumberLen : ℚ) (bins : List Bin) (i : ℕ) : List Bin :=
  if _h : i < bins.length - 1 then
    mergeLoop lumberLen (mergeStep lumberLen bins i) (i + 1)
  else
    bins
termination_by bins.length - i
decreasing_by
  have hscan : ∀ (bin : Bin) (bs : List Bin) (b2 : Bin) (rest : List Bin),
      scanMerge lumberLen bin bs = some (b2, rest) → rest.length + 1 = bs.length := by
    intro bin bs
    induction bs with
    | nil => intro b2 rest h; simp [scanMerge] at h
    | cons x xs ih =>
      intro b2 rest h
      rw [scanMerge] at h
      split at h
      · cases h; rfl
      · cases hx : scanMerge lumberLen bin xs with
        | none => rw [hx] at h; simp at h
        | some p =>
          obtain ⟨y, ys⟩ := p
          rw [hx] at h
          simp only [Option.map_some'] at h
          cases h
          have := ih _ _ hx
          simp only [List.length_cons]
          omega
  have hstep : (mergeStep lumberLen bins i).length ≤ bins.length := by
    unfold mergeStep
    split
    · exact le_refl _
    next bin hb =>
      split
      · exact le_refl _
      next b2 rest hs =>
        have hlen := hscan bin _ _ _ hs
        have hi : i < bins.length := by
          by_contra hc
          rw [List.getElem?_eq_none (by omega)] at hb
          exact Option.noConfusion hb
        have hd : (bins.drop (i + 1)).length = bins.length - (i + 1) :=
          List.length_drop _ _
        simp only [List.length_append, List.length_cons, List.length_take]
        omega
  omega

/-- The bin sort opening the merge phase: stable ascending sort by total used
length, then an in-place reverse (`sort((a,b) => sum(a)-sum(b)).reverse()`). -/
def sortBinsDesc (bins : List Bin) : List Bin :=
  (bins.mergeSort (fun a b => sumCutList a ≤ sumCutList b)).reverse

/-- The state of `groupedSolve` just after the merge phase: each named part
packed independently (each such call starts from a fresh `[[]]`), the
resulting bin lists concatenated in part order, sorted descending by used
length, then greedily merged. -/
def groupedMergePhase (r : CutRequest) : List Bin :=
  let lumberLen := r.effectiveLumberLen
  let bins :=
    (r.namedParts.map
      (fun p => solveCuts (p.2.map (fun v => Cut.mk v p.1)) lumberLen [[]])).flatten
  mergeLoop lumberLen (sortBinsDesc bins) 0

/-- `groupedSolve(inputs)`: per-part packing, merge phase, then the
miscellaneous cuts are packed into the merged bins (which are passed as the
explicit `bins` argument of `solveCuts`, so no fresh empty bin is added). -/
def groupedSolve (r : CutRequest) : List Bin :=
  solveCuts (r.misc.map (fun v => Cut.mk v "false")) r.effectiveLumberLen
    (groupedMergePhase r)

/-- Modelled from the spec wording of the placement step (§4.1, steps 2-4):
"Among bins whose remainder ≥ cut length, select the one with the smallest
such remainder"; ties are appended to all tied bins; "If no bin qualifies,
append a new bin containing only this cut."  Used only to state the
refinement claim about `placeCut`. -/
def placeCutSpec (lumberLen : ℚ) (bins : List Bin) (nextCut : Cut) : List Bin :=
  if bins.any (fun b => decide (nextCut.value ≤ getBinRemainder lumberLen b)) then
    bins.map (fun b =>
      if nextCut.value ≤ getBinRemainder lumberLen b ∧
          ∀ b' ∈ bins, nextCut.value ≤ getBinRemainder lumberLen b' →
            getBinRemainder lumberLen b ≤ getBinRemainder lumberLen b'
      then b ++ [nextCut] else b)
  else
    bins ++ [[nextCut]]

/-- The caller-visible contents of the `cuts` array after `solveCuts`
returns: `sortCutsDesc` runs `Array.prototype.sort` and
`Array.prototype.reverse`, both of which mutate the array in place and
return the same object, so the caller's array holds the descending-sorted
cuts once `solveCuts` has run. -/
def cutsAfterSolve (cuts : List Cut) : List Cut :=
  sortCutsDesc cuts

/-- A JavaScript value reaching the `solveCuts` loop: either a genuine `Cut`
instance or any other value (which fails the `instanceof Cut` sanity
check). -/
inductive JsVal where
  | cut (c : Cut)
  | other
deriving DecidableEq

/-- `true` exactly on non-`Cut` values. -/
def JsVal.isJunk : JsVal → Bool
  | .cut _ => false
  | .other => true

/-- The genuine `Cut`s among a list of JavaScript values. -/
def genuineCuts (vs : List JsVal) : List Cut :=
  vs.filterMap (fun v => match v with | .cut c => some c | .other => none)

/-- `solveCuts` as seen by a JavaScript caller that may pass non-`Cut`
values: the loop throws `Error("Expected instance of Cut")` as soon as it
meets an element that is not a `Cut` instance (so the call errors exactly
when such an element is present); otherwise the run is the pure
`solveCuts`. -/
def solveCutsJS (vs : List JsVal) (lumberLen : ℚ) (bins : List Bin) :
    Except String (List Bin) :=
  match vs.find? JsVal.isJunk with
  | some _ => .error "Expected instance of Cut"
  | none => .ok (solveCuts (genuineCuts vs) lumberLen bins)

/-- The bins that receive `nextCut` in one placement step: the bins whose
remainder equals the smallest usable remainder (empty when no bin can
accommodate the cut). -/
def tiedBins (lumberLen : ℚ) (bins : List Bin) (nextCut : Cut) : List Bin :=
  let remainders :=
    (bins.map (getBinRemainder lumberLen)).filter
      (fun v => decide (nextCut.value ≤ v))
  if remainders.isEmpty then []
  else bins.filter
    (fun b => decide (getBinRemainder lumberLen b = listMin remainders))

/-- `true` when no step of the placement loop, run over the given cut
sequence from the given bins, has two or more bins tied for the smallest
usable remainder. -/
def tieFreeRun (lumberLen : ℚ) : List Bin → List Cut → Bool
  | _, [] => true
  | bins, c :: cs =>
    decide ((tiedBins lumberLen bins c).length ≤ 1) &&
      tieFreeRun lumberLen (placeCut lumberLen bins c) cs

/-- The placement step of `solveCuts` acting on bins that record only the
cut lengths; used to state that part tags do not influence packing. -/
def placeVals (lumberLen : ℚ) (vbins : List (List ℚ)) (v : ℚ) : List (List ℚ) :=
  let remainders :=
    (vbins.map (fun b => lumberLen - sumList b)).filter
      (fun x => decide (v ≤ x))
  if remainders.isEmpty then
    vbins ++ [[v]]
  else
    let m := listMin remainders
    vbins.map (fun b => if lumberLen - sumList b = m then b ++ [v] else b)

/-- The multiset of padded cut lengths of a request, in the flattening order
of `naiveSolve`. -/
def allValues (r : CutRequest) : List ℚ :=
  (naiveFlatten r).map Cut.value

/-- The §8 grouped-strategy scenario: partA = [30,30], partB = [40],
ungrouped = [10], usable length 96 (kerf 0). -/
def reqScenario : CutRequest :=
  ⟨96, [("partA", [30, 30]), ("partB", [40])], [10]⟩

/-- A request on which the flat strategy needs four boards but the grouped
strategy needs only three (usable length 10). -/
def reqGlobalWorse : CutRequest :=
  ⟨10, [("A", [5, 5]), ("B", [4, 3, 3]), ("C", [4, 3, 3])], []⟩

/-- A request on which the flat strategy needs one board but the grouped
strategy needs two (usable length 12). -/
def reqGroupedWorse : CutRequest :=
  ⟨12, [("A", [6]), ("B", [3]), ("C", [3])], []⟩

/-! ## Basic lemmas about sums and minima -/

theorem foldl_add_eq (l : List ℚ) : ∀ a : ℚ, l.foldl (· + ·) a = a + l.sum := by
  induction l with
  | nil => intro a; simp
  | cons x xs ih =>
    intro a
    simp only [List.foldl_cons, List.sum_cons, ih, add_assoc]

theorem sumList_eq_sum (l : List ℚ) : sumList l = l.sum := by
  rw [sumList, foldl_add_eq, zero_add]

theorem sumCutList_append (a b : Bin) :
    sumCutList (a ++ b) = sumCutList a + sumCutList b := by
  simp [sumCutList, sumList_eq_sum]

theorem sumCutList_push (b : Bin) (c : Cut) :
    sumCutList (b ++ [c]) = sumCutList b + c.value := by
  simp [sumCutList_append, sumCutList, sumList_eq_sum]

theorem foldl_min_le_init (l : List ℚ) : ∀ a : ℚ, l.foldl min a ≤ a := by
  induction l with
  | nil => intro a; simp
  | cons x xs ih =>
    intro a
    exact le_trans (ih (min a x)) (min_le_left _ _)

theorem foldl_min_choice (l : List ℚ) :
    ∀ a : ℚ, l.foldl min a = a ∨ l.foldl min a ∈ l := by
  induction l with
  | nil => intro a; left; rfl
  | cons x xs ih =>
    intro a
    rcases ih (min a x) with h | h
    · rcases min_choice a x with hm | hm
      · left; rw [List.foldl_cons, h, hm]
      · right; rw [List.foldl_cons, h, hm]; exact List.mem_cons_self _ _
    · right; exact List.mem_cons_of_mem _ h

theorem foldl_min_le_mem (l : List ℚ) :
    ∀ (a x : ℚ), x ∈ l → l.foldl min a ≤ x := by
  induction l with
  | nil => intro a x hx; simp at hx
  | cons y ys ih =>
    intro a x hx
    rcases List.mem_cons.mp hx with rfl | hx
    · exact le_trans (foldl_min_le_init ys (min a x)) (min_le_right _ _)
    · exact ih (min a y) x hx

theorem listMin_mem {l : List ℚ} (h : l ≠ []) : listMin l ∈ l := by
  cases l with
  | nil => exact absurd rfl h
  | cons x xs =>
    rw [listMin]
    rcases foldl_min_choice xs x with hc | hc
    · rw [hc]; exact List.mem_cons_self _ _
    · exact List.mem_cons_of_mem _ hc

theorem listMin_le {l : List ℚ} {x : ℚ} (hx : x ∈ l) : listMin l ≤ x := by
  cases l with
  | nil => simp at hx
  | cons y ys =>
    rw [listMin]
    rcases List.mem_cons.mp hx with rfl | hx
    · exact foldl_min_le_init ys x
    · exact foldl_min_le_mem ys y x hx

/-- Membership in the usable-remainder list computed by the placement
step. -/
theorem mem_remainders_iff {lumberLen : ℚ} {bins : List Bin} {c : Cut} {x : ℚ} :
    x ∈ (bins.map (getBinRemainder lumberLen)).filter
        (fun v => decide (c.value ≤ v)) ↔
      (∃ b ∈ bins, getBinRemainder lumberLen b = x) ∧ c.value ≤ x := by
  simp [List.mem_filter, List.mem_map]

/-! ## The placement step refines the best-fit description -/

theorem placeCut_eq_spec (lumberLen : ℚ) (bins : List Bin) (c : Cut) :
    placeCut lumberLen bins c = placeCutSpec lumberLen bins c := by
  simp only [placeCut, placeCutSpec]
  set rs := (bins.map (getBinRemainder lumberLen)).filter
    (fun v => decide (c.value ≤ v)) with hrsdef
  by_cases hex : ∃ b ∈ bins, c.value ≤ getBinRemainder lumberLen b
  · obtain ⟨b0, hb0, hq0⟩ := hex
    have hmem0 : getBinRemainder lumberLen b0 ∈ rs :=
      mem_remainders_iff.mpr ⟨⟨b0, hb0, rfl⟩, hq0⟩
    have hne : rs ≠ [] := fun h => by rw [h] at hmem0; simp at hmem0
    have hisEmpty : rs.isEmpty = false := by
      cases hrs : rs with
      | nil => exact absurd hrs hne
      | cons x xs => rfl
    have hany :
        bins.any (fun b => decide (c.value ≤ getBinRemainder lumberLen b)) = true := by
      simp only [List.any_eq_true, decide_eq_true_eq]
      exact ⟨b0, hb0, hq0⟩
    rw [if_neg (by simp [hisEmpty]), if_pos (by simp [hany])]
    apply List.map_congr_left
    intro b hb
    have key : getBinRemainder lumberLen b = listMin rs ↔
        (c.value ≤ getBinRemainder lumberLen b ∧
          ∀ b' ∈ bins, c.value ≤ getBinRemainder lumberLen b' →
            getBinRemainder lumberLen b ≤ getBinRemainder lumberLen b') := by
      constructor
      · intro he
        have hminmem : listMin rs ∈ rs := listMin_mem hne
        obtain ⟨⟨b1, hb1, hrem1⟩, hcle⟩ := mem_remainders_iff.mp hminmem
        refine ⟨he ▸ hcle, ?_⟩
        intro b' hb' hq'
        have hmem' : getBinRemainder lumberLen b' ∈ rs :=
          mem_remainders_iff.mpr ⟨⟨b', hb', rfl⟩, hq'⟩
        rw [he]
        exact listMin_le hmem'
      · rintro ⟨hq, hmin⟩
        have hmemb : getBinRemainder lumberLen b ∈ rs :=
          mem_remainders_iff.mpr ⟨⟨b, hb, rfl⟩, hq⟩
        have h1 : listMin rs ≤ getBinRemainder lumberLen b := listMin_le hmemb
        have hminmem : listMin rs ∈ rs := listMin_mem hne
        obtain ⟨⟨b1, hb1, hrem1⟩, hcle⟩ := mem_remainders_iff.mp hminmem
        have h2 : getBinRemainder lumberLen b ≤ listMin rs :=
          hrem1 ▸ hmin b1 hb1 (hrem1 ▸ hcle)
        exact le_antisymm h2 h1
    exact if_congr key rfl rfl
  · have hnil : rs = [] := by
      apply List.eq_nil_iff_forall_not_mem.mpr
      intro x hx
      obtain ⟨⟨b, hb, he⟩, hc⟩ := mem_remainders_iff.mp hx
      exact hex ⟨b, hb, he ▸ hc⟩
    have hany :
        bins.any (fun b => decide (c.value ≤ getBinRemainder lumberLen b)) = false := by
      simp only [List.any_eq_false, decide_eq_true_eq]
      intro b hb hc
      exact hex ⟨b, hb, hc⟩
    rw [if_pos (by simp [hnil]), if_neg (by simp [hany])]

theorem sortCutsDesc_perm (cuts : List Cut) : (sortCutsDesc cuts).Perm cuts :=
  (List.reverse_perm _).trans (List.mergeSort_perm cuts _)

theorem sortCutsDesc_sorted (cuts : List Cut) :
    (sortCutsDesc cuts).Pairwise (fun a b => b.value ≤ a.value) := by
  rw [sortCutsDesc, List.pairwise_reverse]
  have htrans : ∀ a b c : Cut, decide (a.value ≤ b.value) = true →
      decide (b.value ≤ c.value) = true → decide (a.value ≤ c.value) = true := by
    intro a b c hab hbc
    simp only [decide_eq_true_eq] at hab hbc ⊢
    exact le_trans hab hbc
  have htotal : ∀ a b : Cut,
      (decide (a.value ≤ b.value) || decide (b.value ≤ a.value)) = true := by
    intro a b
    simp only [Bool.or_eq_true, decide_eq_true_eq]
    exact le_total a.value b.value
  have hs := List.sorted_mergeSort htrans htotal cuts
  exact hs.imp (fun h => by simpa using h)

/-- C2: `solveCuts` processes its cuts in descending order of length (the
working list is a descending-sorted permutation of the input) and each
placement step refines the best-fit description: the cut goes to a bin whose
remainder accommodates it and is smallest among all such bins, and when no
bin qualifies a new bin holding only this cut is appended. -/
theorem pack_best_fit_descending (cuts : List Cut) (lumberLen : ℚ)
    (bins : List Bin) (c : Cut) :
    solveCuts cuts lumberLen bins =
        (sortCutsDesc cuts).foldl (placeCut lumberLen) bins ∧
      (sortCutsDesc cuts).Pairwise (fun a b => b.value ≤ a.value) ∧
      (sortCutsDesc cuts).Perm cuts ∧
      placeCut lumberLen bins c = placeCutSpec lumberLen bins c :=
  ⟨rfl, sortCutsDesc_sorted cuts, sortCutsDesc_perm cuts,
    placeCut_eq_spec lumberLen bins c⟩

/-- C3: when two distinct bins both qualify for the cut and share the
smallest qualifying remainder, the placement step appends the cut to both of
them (the JS loop pushes into every bin matching the minimum). -/
theorem pack_appends_to_all_tied (lumberLen : ℚ) (bins : List Bin) (c : Cut)
    (i j : ℕ) (hi : i < bins.length) (hj : j < bins.length) (hij : i ≠ j)
    (hqi : c.value ≤ getBinRemainder lumberLen (bins.get ⟨i, hi⟩))
    (hqj : c.value ≤ getBinRemainder lumberLen (bins.get ⟨j, hj⟩))
    (heq : getBinRemainder lumberLen (bins.get ⟨i, hi⟩) =
      getBinRemainder lumberLen (bins.get ⟨j, hj⟩))
    (hmin : ∀ b ∈ bins, c.value ≤ getBinRemainder lumberLen b →
      getBinRemainder lumberLen (bins.get ⟨i, hi⟩) ≤ getBinRemainder lumberLen b) :
    (placeCut lumberLen bins c).length = bins.length ∧
      (placeCut lumberLen bins c)[i]? = some (bins.get ⟨i, hi⟩ ++ [c]) ∧
      (placeCut lumberLen bins c)[j]? = some (bins.get ⟨j, hj⟩ ++ [c]) := by
  simp only [placeCut]
  set rs := (bins.map (getBinRemainder lumberLen)).filter
    (fun v => decide (c.value ≤ v)) with hrsdef
  have hmemi : getBinRemainder lumberLen (bins.get ⟨i, hi⟩) ∈ rs :=
    mem_remainders_iff.mpr ⟨⟨_, List.get_mem bins i hi, rfl⟩, hqi⟩
  have hne : rs ≠ [] := fun h => by rw [h] at hmemi; simp at hmemi
  have hisEmpty : rs.isEmpty = false := by
    cases hrs : rs with
    | nil => exact absurd hrs hne
    | cons x xs => rfl
  rw [if_neg (by simp [hisEmpty])]
  have hmini : getBinRemainder lumberLen (bins.get ⟨i, hi⟩) = listMin rs := by
    have h1 : listMin rs ≤ getBinRemainder lumberLen (bins.get ⟨i, hi⟩) :=
      listMin_le hmemi
    obtain ⟨⟨b1, hb1, hrem1⟩, hcle⟩ := mem_remainders_iff.mp (listMin_mem hne)
    have h2 : getBinRemainder lumberLen (bins.get ⟨i, hi⟩) ≤ listMin rs :=
      hrem1 ▸ hmin b1 hb1 (hrem1 ▸ hcle)
    exact le_antisymm h2 h1
  have hminj : getBinRemainder lumberLen (bins.get ⟨j, hj⟩) = listMin rs :=
    heq ▸ hmini
  refine ⟨List.length_map _ _, ?_, ?_⟩
  · rw [List.getElem?_map, List.getElem?_eq_getElem hi]
    simp only [Option.map_some']
    rw [List.get_eq_getElem] at hmini
    rw [if_pos hmini]
    rw [List.get_eq_getElem]
  · rw [List.getElem?_map, List.getElem?_eq_getElem hj]
    simp only [Option.map_some']
    rw [List.get_eq_getElem] at hminj
    rw [if_pos hminj]
    rw [List.get_eq_getElem]

/-- Witness for `pack_appends_to_all_tied`: two bins each holding one cut of
length 5 on length-10 lumber tie with remainder 5 for a cut of length 3, and
both receive it. -/
theorem pack_appends_to_all_tied_witness :
    (placeCut 10 [[⟨5, "a"⟩], [⟨5, "a"⟩]] ⟨3, "a"⟩).length =
        ([[⟨5, "a"⟩], [⟨5, "a"⟩]] : List Bin).length ∧
      (placeCut 10 [[⟨5, "a"⟩], [⟨5, "a"⟩]] ⟨3, "a"⟩)[0]? =
        some (([[⟨5, "a"⟩], [⟨5, "a"⟩]] : List Bin).get ⟨0, by decide⟩ ++ [⟨3, "a"⟩]) ∧
      (placeCut 10 [[⟨5, "a"⟩], [⟨5, "a"⟩]] ⟨3, "a"⟩)[1]? =
        some (([[⟨5, "a"⟩], [⟨5, "a"⟩]] : List Bin).get ⟨1, by decide⟩ ++ [⟨3, "a"⟩]) :=
  pack_appends_to_all_tied 10 [[⟨5, "a"⟩], [⟨5, "a"⟩]] ⟨3, "a"⟩ 0 1
    (by decide) (by decide) (by decide) (by with_unfolding_all decide)
    (by with_unfolding_all decide) (by with_unfolding_all decide)
    (by with_unfolding_all decide)

/-! ## Capacity invariant -/

theorem placeCut_capacity (lumberLen : ℚ) (bins : List Bin) (c : Cut)
    (hc : c.value ≤ lumberLen)
    (hb : ∀ b ∈ bins, sumCutList b ≤ lumberLen) :
    ∀ b ∈ placeCut lumberLen bins c, sumCutList b ≤ lumberLen := by
  intro b hmem
  simp only [placeCut] at hmem
  set rs := (bins.map (getBinRemainder lumberLen)).filter
    (fun v => decide (c.value ≤ v)) with hrsdef
  by_cases hemp : rs.isEmpty
  · rw [if_pos hemp] at hmem
    rcases List.mem_append.mp hmem with h | h
    · exact hb b h
    · rw [List.mem_singleton] at h
      subst h
      have hone : sumCutList [c] = c.value := by
        simp [sumCutList, sumList_eq_sum]
      rw [hone]
      exact hc
  · rw [if_neg hemp] at hmem
    obtain ⟨b0, hb0, rfl⟩ := List.mem_map.mp hmem
    by_cases hif : getBinRemainder lumberLen b0 = listMin rs
    · rw [if_pos hif, sumCutList_push]
      have hne : rs ≠ [] := by
        intro h
        rw [h] at hemp
        exact hemp rfl
      obtain ⟨⟨b1, hb1, hrem1⟩, hcle⟩ := mem_remainders_iff.mp (listMin_mem hne)
      have hq : c.value ≤ getBinRemainder lumberLen b0 := hif ▸ hcle
      rw [getBinRemainder] at hq
      linarith
    · rw [if_neg hif]
      exact hb b0 hb0

theorem foldl_placeCut_capacity (lumberLen : ℚ) :
    ∀ (cs : List Cut) (bins : List Bin), (∀ c ∈ cs, c.value ≤ lumberLen) →
      (∀ b ∈ bins, sumCutList b ≤ lumberLen) →
      ∀ b ∈ cs.foldl (placeCut lumberLen) bins, sumCutList b ≤ lumberLen := by
  intro cs
  induction cs with
  | nil => intro bins _ hb; simpa using hb
  | cons c cs ih =>
    intro bins hc hb
    simp only [List.foldl_cons]
    exact ih _ (fun x hx => hc x (List.mem_cons_of_mem _ hx))
      (placeCut_capacity _ _ _ (hc c (List.mem_cons_self _ _)) hb)

theorem solveCuts_capacity (cuts : List Cut) (lumberLen : ℚ) (bins : List Bin)
    (hc : ∀ c ∈ cuts, c.value ≤ lumberLen)
    (hb : ∀ b ∈ bins, sumCutList b ≤ lumberLen) :
    ∀ b ∈ solveCuts cuts lumberLen bins, sumCutList b ≤ lumberLen :=
  foldl_placeCut_capacity lumberLen (sortCutsDesc cuts) bins
    (fun c h => hc c ((sortCutsDesc_perm cuts).subset h)) hb

theorem scanMerge_len (lumberLen : ℚ) (bin : Bin) :
    ∀ (bs : List Bin) (b2 : Bin) (rest : List Bin),
      scanMerge lumberLen bin bs = some (b2, rest) →
      rest.length + 1 = bs.length := by
  intro bs
  induction bs with
  | nil => intro b2 rest h; simp [scanMerge] at h
  | cons x xs ih =>
    intro b2 rest h
    rw [scanMerge] at h
    split at h
    · cases h; rfl
    · cases hx : scanMerge lumberLen bin xs with
      | none => rw [hx] at h; simp at h
      | some p =>
        obtain ⟨y, ys⟩ := p
        rw [hx] at h
        simp only [Option.map_some'] at h
        cases h
        have := ih _ _ hx
        simp only [List.length_cons]
        omega

theorem scanMerge_spec (lumberLen : ℚ) (bin : Bin) :
    ∀ (bs : List Bin) (b2 : Bin) (rest : List Bin),
      scanMerge lumberLen bin bs = some (b2, rest) →
      sumCutList bin ≤ getBinRemainder lumberLen b2 ∧ b2 ∈ bs ∧
        ∀ x ∈ rest, x ∈ bs := by
  intro bs
  induction bs with
  | nil => intro b2 rest h; simp [scanMerge] at h
  | cons x xs ih =>
    intro b2 rest h
    rw [scanMerge] at h
    split at h
    next hcond =>
      cases h
      exact ⟨hcond, List.mem_cons_self _ _, fun y hy => List.mem_cons_of_mem _ hy⟩
    next hcond =>
      cases hx : scanMerge lumberLen bin xs with
      | none => rw [hx] at h; simp at h
      | some p =>
        obtain ⟨y, ys⟩ := p
        rw [hx] at h
        simp only [Option.map_some'] at h
        cases h
        obtain ⟨h1, h2, h3⟩ := ih _ _ hx
        refine ⟨h1, List.mem_cons_of_mem _ h2, ?_⟩
        intro z hz
        rcases List.mem_cons.mp hz with rfl | hz
        · exact List.mem_cons_self _ _
        · exact List.mem_cons_of_mem _ (h3 z hz)

theorem mergeStep_length_le (lumberLen : ℚ) (bins : List Bin) (i : ℕ) :
    (mergeStep lumberLen bins i).length ≤ bins.length := by
  unfold mergeStep
  split
  · exact le_refl _
  next bin hb =>
    split
    · exact le_refl _
    next b2 rest hs =>
      have hlen := scanMerge_len lumberLen bin _ _ _ hs
      have hi : i < bins.length := by
        by_contra hc
        rw [List.getElem?_eq_none (by omega)] at hb
        exact Option.noConfusion hb
      have hd : (bins.drop (i + 1)).length = bins.length - (i + 1) :=
        List.length_drop _ _
      simp only [List.length_append, List.length_cons, List.length_take]
      omega

theorem mergeStep_capacity (lumberLen : ℚ) (bins : List Bin) (i : ℕ)
    (h : ∀ b ∈ bins, sumCutList b ≤ lumberLen) :
    ∀ b ∈ mergeStep lumberLen bins i, sumCutList b ≤ lumberLen := by
  intro b hmem
  unfold mergeStep at hmem
  split at hmem
  · exact h b hmem
  next bin hb =>
    split at hmem
    · exact h b hmem
    next b2 rest hs =>
      obtain ⟨hcond, hmem2, hrest⟩ := scanMerge_spec lumberLen bin _ b2 rest hs
      rcases List.mem_append.mp hmem with hl | hr
      · exact h b (List.mem_of_mem_take hl)
      · rcases List.mem_cons.mp hr with rfl | hr
        · rw [sumCutList_append]
          rw [getBinRemainder] at hcond
          linarith
        · exact h b (List.mem_of_mem_drop (hrest b hr))

theorem mergeLoop_capacity (lumberLen : ℚ) (bins : List Bin) (i : ℕ)
    (h : ∀ b ∈ bins, sumCutList b ≤ lumberLen) :
    ∀ b ∈ mergeLoop lumberLen bins i, sumCutList b ≤ lumberLen := by
  rw [mergeLoop]
  split
  · exact mergeLoop_capacity lumberLen (mergeStep lumberLen bins i) (i + 1)
      (mergeStep_capacity lumberLen bins i h)
  · exact h
termination_by bins.length - i
decreasing_by
  have := mergeStep_length_le lumberLen bins i
  omega

theorem sortBinsDesc_perm (bins : List Bin) : (sortBinsDesc bins).Perm bins :=
  (List.reverse_perm _).trans (List.mergeSort_perm bins _)

theorem groupedMergePhase_capacity (r : CutRequest)
    (h0 : 0 ≤ r.effectiveLumberLen)
    (hp : ∀ p ∈ r.namedParts, ∀ v ∈ p.2, v ≤ r.effectiveLumberLen) :
    ∀ b ∈ groupedMergePhase r, sumCutList b ≤ r.effectiveLumberLen := by
  simp only [groupedMergePhase]
  apply mergeLoop_capacity
  intro b hb
  have hb0 := (sortBinsDesc_perm _).subset hb
  obtain ⟨l, hl, hbl⟩ := List.mem_flatten.mp hb0
  obtain ⟨p, hpmem, rfl⟩ := List.mem_map.mp hl
  apply solveCuts_capacity _ _ _ ?_ ?_ b hbl
  · intro c hcmem
    obtain ⟨v, hv, rfl⟩ := List.mem_map.mp hcmem
    exact hp p hpmem v hv
  · intro b1 hb1
    rw [List.mem_singleton] at hb1
    subst hb1
    simpa [sumCutList, sumList] using h0

/-- C1: every bin returned by `solveCuts` fits on the lumber whenever every
cut is no longer than the lumber and every pre-existing bin already fits; in
particular the bins of `groupedSolve` after its merge phase, and its final
bins, all fit. -/
theorem pack_capacity_invariant (cuts : List Cut) (lumberLen : ℚ)
    (bins : List Bin) (r : CutRequest)
    (hc : ∀ c ∈ cuts, c.value ≤ lumberLen)
    (hb : ∀ b ∈ bins, sumCutList b ≤ lumberLen)
    (h0 : 0 ≤ r.effectiveLumberLen)
    (hp : ∀ p ∈ r.namedParts, ∀ v ∈ p.2, v ≤ r.effectiveLumberLen)
    (hm : ∀ v ∈ r.misc, v ≤ r.effectiveLumberLen) :
    (∀ b ∈ solveCuts cuts lumberLen bins, sumCutList b ≤ lumberLen) ∧
      (∀ b ∈ groupedMergePhase r, sumCutList b ≤ r.effectiveLumberLen) ∧
      (∀ b ∈ groupedSolve r, sumCutList b ≤ r.effectiveLumberLen) := by
  refine ⟨solveCuts_capacity cuts lumberLen bins hc hb,
    groupedMergePhase_capacity r h0 hp, ?_⟩
  apply solveCuts_capacity
  · intro c hcmem
    obtain ⟨v, hv, rfl⟩ := List.mem_map.mp hcmem
    exact hm v hv
  · exact groupedMergePhase_capacity r h0 hp

/-- Witness for `pack_capacity_invariant` at the §8 scenario request and a
one-cut call to the engine. -/
theorem pack_capacity_invariant_witness :
    (∀ b ∈ solveCuts [⟨3, "a"⟩] 10 [[]], sumCutList b ≤ 10) ∧
      (∀ b ∈ groupedMergePhase reqScenario,
        sumCutList b ≤ reqScenario.effectiveLumberLen) ∧
      (∀ b ∈ groupedSolve reqScenario,
        sumCutList b ≤ reqScenario.effectiveLumberLen) :=
  pack_capacity_invariant [⟨3, "a"⟩] 10 [[]] reqScenario
    (by with_unfolding_all decide) (by with_unfolding_all decide)
    (by with_unfolding_all decide) (by with_unfolding_all decide)
    (by with_unfolding_all decide)

/-! ## Completeness in the absence of ties -/

theorem flatten_map_append_unique (P : Bin → Prop) [DecidablePred P] (c : Cut) :
    ∀ bins : List Bin, bins.countP (fun b => decide (P b)) = 1 →
      ((bins.map (fun b => if P b then b ++ [c] else b)).flatten).Perm
        (c :: bins.flatten) := by
  intro bins
  induction bins with
  | nil => intro h; simp at h
  | cons b bs ih =>
    intro h
    by_cases hP : P b
    · have hcnt : bs.countP (fun x => decide (P x)) = 0 := by
        rw [List.countP_cons_of_pos _ _ (by simpa using hP)] at h
        omega
      have hmap : bs.map (fun x => if P x then x ++ [c] else x) = bs := by
        conv_rhs => rw [← List.map_id bs]
        apply List.map_congr_left
        intro a ha
        have : ¬P a := by
          have := List.countP_eq_zero.mp hcnt a ha
          simpa using this
        simp [if_neg this]
      simp only [List.map_cons, hmap, List.flatten_cons, if_pos hP]
      rw [List.append_assoc]
      exact List.perm_middle
    · have hcnt : bs.countP (fun x => decide (P x)) = 1 := by
        rw [List.countP_cons_of_neg _ _ (by simpa using hP)] at h
        exact h
      simp only [List.map_cons, List.flatten_cons, if_neg hP]
      exact (List.Perm.append_left b (ih hcnt)).trans List.perm_middle

theorem placeCut_flatten_perm (lumberLen : ℚ) (bins : List Bin) (c : Cut)
    (htie : (tiedBins lumberLen bins c).length ≤ 1) :
    ((placeCut lumberLen bins c).flatten).Perm (c :: bins.flatten) := by
  simp only [placeCut, tiedBins] at htie ⊢
  set rs := (bins.map (getBinRemainder lumberLen)).filter
    (fun v => decide (c.value ≤ v)) with hrsdef
  by_cases hemp : rs.isEmpty
  · rw [if_pos hemp]
    rw [List.flatten_append]
    simp only [List.flatten_cons, List.flatten_nil, List.append_nil]
    exact List.perm_append_singleton c bins.flatten
  · rw [if_neg hemp] at htie ⊢
    have hne : rs ≠ [] := fun hh => hemp (by rw [hh]; rfl)
    have hpos : 0 < bins.countP
        (fun b => decide (getBinRemainder lumberLen b = listMin rs)) := by
      rw [List.countP_pos_iff]
      obtain ⟨⟨b1, hb1, hrem1⟩, _⟩ := mem_remainders_iff.mp (listMin_mem hne)
      exact ⟨b1, hb1, by simpa using hrem1⟩
    have hcnt : bins.countP
        (fun b => decide (getBinRemainder lumberLen b = listMin rs)) = 1 := by
      have hle : bins.countP
          (fun b => decide (getBinRemainder lumberLen b = listMin rs)) ≤ 1 := by
        rw [List.countP_eq_length_filter]
        exact htie
      omega
    exact flatten_map_append_unique
      (fun b => getBinRemainder lumberLen b = listMin rs) c bins hcnt

theorem foldl_placeCut_flatten_perm (lumberLen : ℚ) :
    ∀ (cs : List Cut) (bins : List Bin), tieFreeRun lumberLen bins cs = true →
      ((cs.foldl (placeCut lumberLen) bins).flatten).Perm
        (cs ++ bins.flatten) := by
  intro cs
  induction cs with
  | nil => intro bins _; simp
  | cons c cs ih =>
    intro bins h
    rw [tieFreeRun, Bool.and_eq_true, decide_eq_true_eq] at h
    obtain ⟨h1, h2⟩ := h
    simp only [List.foldl_cons]
    exact (ih _ h2).trans
      ((List.Perm.append_left cs
        (placeCut_flatten_perm lumberLen bins c h1)).trans List.perm_middle)

/-- C4: on any run of `solveCuts` in which no placement step has two or more
bins tied for the smallest usable remainder, the cuts in the returned bins
are exactly the input cuts plus the cuts already in the existing bins — no
cut is lost and no cut is duplicated. -/
theorem pack_tie_free_complete (cuts : List Cut) (lumberLen : ℚ)
    (bins : List Bin)
    (h : tieFreeRun lumberLen bins (sortCutsDesc cuts) = true) :
    ((solveCuts cuts lumberLen bins).flatten).Perm (cuts ++ bins.flatten) :=
  (foldl_placeCut_flatten_perm lumberLen (sortCutsDesc cuts) bins h).trans
    (List.Perm.append_right bins.flatten (sortCutsDesc_perm cuts))

/-- Witness for `pack_tie_free_complete`: a tie-free run of two cuts from a
single empty bin keeps exactly the two cuts. -/
theorem pack_tie_free_complete_witness :
    tieFreeRun 10 [[]] (sortCutsDesc [⟨3, "a"⟩, ⟨2, "a"⟩]) = true ∧
      ((solveCuts [⟨3, "a"⟩, ⟨2, "a"⟩] 10 [[]]).flatten).Perm
        ([⟨3, "a"⟩, ⟨2, "a"⟩] ++ ([[]] : List Bin).flatten) :=
  ⟨by with_unfolding_all decide,
    pack_tie_free_complete [⟨3, "a"⟩, ⟨2, "a"⟩] 10 [[]]
      (by with_unfolding_all decide)⟩

/-! ## Error behaviour of the engine -/

/-- C5: the engine loop raises no exception on a list of genuine `Cut`
values (whatever their lengths), and when it does fail the failure happens
exactly because a non-`Cut` value reached the loop, with the
contract-violation error (`Error("Expected instance of Cut")`, the spec's
`InvalidCutError`). -/
theorem pack_error_only_on_invalid_cut (vs : List JsVal) (lumberLen : ℚ)
    (bins : List Bin) :
    ((∀ v ∈ vs, v.isJunk = false) →
        solveCutsJS vs lumberLen bins =
          Except.ok (solveCuts (genuineCuts vs) lumberLen bins)) ∧
      (∀ e, solveCutsJS vs lumberLen bins = Except.error e →
        (∃ v ∈ vs, v.isJunk = true) ∧ e = "Expected instance of Cut") := by
  constructor
  · intro hall
    rw [solveCutsJS]
    have hf : vs.find? JsVal.isJunk = none := by
      rw [List.find?_eq_none]
      intro v hv
      simp [hall v hv]
    rw [hf]
  · intro e he
    rw [solveCutsJS] at he
    cases hf : vs.find? JsVal.isJunk with
    | none => rw [hf] at he; exact Except.noConfusion he
    | some v =>
      rw [hf] at he
      refine ⟨⟨v, List.mem_of_find?_eq_some hf, List.find?_some hf⟩, ?_⟩
      cases he
      rfl

/-- Witness for `pack_error_only_on_invalid_cut`: a genuine cut list
succeeds; a list holding a non-`Cut` value satisfies the error
characterization. -/
theorem pack_error_only_on_invalid_cut_witness :
    solveCutsJS [JsVal.cut ⟨3, "a"⟩] 10 [[]] =
        Except.ok (solveCuts (genuineCuts [JsVal.cut ⟨3, "a"⟩]) 10 [[]]) ∧
      ((∃ v ∈ [JsVal.other], v.isJunk = true) ∧
        ("Expected instance of Cut" : String) = "Expected instance of Cut") :=
  ⟨(pack_error_only_on_invalid_cut [JsVal.cut ⟨3, "a"⟩] 10 [[]]).1 (by decide),
    (pack_error_only_on_invalid_cut [JsVal.other] 10 [[]]).2
      "Expected instance of Cut" (by with_unfolding_all rfl)⟩

/-! ## The caller's cut list is sorted in place -/

/-- Counterexample to "pack does not mutate the caller's cut list": after
`solveCuts`, a caller list that was ascending has been reordered. -/
theorem pack_mutates_cuts_counterexample :
    cutsAfterSolve [⟨1, "a"⟩, ⟨2, "a"⟩] ≠ [⟨1, "a"⟩, ⟨2, "a"⟩] := by
  with_unfolding_all decide

/-- C6 (amended): `solveCuts` sorts the caller's `cuts` array in place —
after the call the caller's list holds the same cuts (as a multiset) but in
descending order of length, not necessarily the original order. -/
theorem pack_sorts_caller_cuts_in_place (cuts : List Cut) :
    (cutsAfterSolve cuts).Perm cuts ∧
      (cutsAfterSolve cuts).Pairwise (fun a b => b.value ≤ a.value) :=
  ⟨sortCutsDesc_perm cuts, sortCutsDesc_sorted cuts⟩

/-! ## Board counts of the two strategies are not comparable -/

/-- Counterexample to "GlobalStrategy board count ≤ GroupedStrategy board
count": on `reqGlobalWorse` the flat strategy uses 4 boards while the
grouped strategy uses 3. -/
theorem global_count_can_exceed_grouped :
    ¬ (naiveSolve reqGlobalWorse).length ≤ (groupedSolve reqGlobalWorse).length := by
  with_unfolding_all decide

/-- C7 (amended): neither strategy dominates: the flat strategy can need
strictly more boards than the grouped one (`reqGlobalWorse`: 4 against 3)
and strictly fewer (`reqGroupedWorse`: 1 against 2). -/
theorem board_count_not_monotone :
    (groupedSolve reqGlobalWorse).length < (naiveSolve reqGlobalWorse).length ∧
      (naiveSolve reqGroupedWorse).length < (groupedSolve reqGroupedWorse).length := by
  with_unfolding_all decide

/-! ## The grouped-strategy scenario of §8 -/

/-- C8: on the §8 scenario request (partA = [30,30], partB = [40],
ungrouped = [10], usable length 96) the grouped strategy packs each part
into one bin, merges nothing (60 is larger than the other bin's remainder
56), and best-fit places the miscellaneous 10 into the remainder-36 bin,
leaving it at remainder 26. -/
theorem grouped_scenario_bins :
    solveCuts [⟨30, "partA"⟩, ⟨30, "partA"⟩] 96 [[]] =
        [[⟨30, "partA"⟩, ⟨30, "partA"⟩]] ∧
      solveCuts [⟨40, "partB"⟩] 96 [[]] = [[⟨40, "partB"⟩]] ∧
      getBinRemainder 96 [⟨30, "partA"⟩, ⟨30, "partA"⟩] = 36 ∧
      getBinRemainder 96 [⟨40, "partB"⟩] = 56 ∧
      groupedMergePhase reqScenario =
        [[⟨30, "partA"⟩, ⟨30, "partA"⟩], [⟨40, "partB"⟩]] ∧
      groupedSolve reqScenario =
        [[⟨30, "partA"⟩, ⟨30, "partA"⟩, ⟨10, "false"⟩], [⟨40, "partB"⟩]] ∧
      getBinRemainder 96 [⟨30, "partA"⟩, ⟨30, "partA"⟩, ⟨10, "false"⟩] = 26 := by
  with_unfolding_all decide

/-! ## The returned list extends the existing bins in place -/

theorem forall₂_ext_trans :
    ∀ {l1 l2 l3 : List Bin},
      List.Forall₂ (fun b e => ∃ t, e = b ++ t) l1 l2 →
      List.Forall₂ (fun b e => ∃ t, e = b ++ t) l2 l3 →
      List.Forall₂ (fun b e => ∃ t, e = b ++ t) l1 l3 := by
  intro l1 l2 l3 h1
  induction h1 generalizing l3 with
  | nil =>
    intro h2
    cases h2
    exact List.Forall₂.nil
  | cons hr hrest ih =>
    intro h2
    cases h2 with
    | cons hr2 hrest2 =>
      refine List.Forall₂.cons ?_ (ih hrest2)
      obtain ⟨t1, rfl⟩ := hr
      obtain ⟨t2, rfl⟩ := hr2
      exact ⟨t1 ++ t2, List.append_assoc _ _ _⟩

theorem placeCut_split (lumberLen : ℚ) (ext0 new0 : List Bin) (c : Cut) :
    ∃ ext1 new1, placeCut lumberLen (ext0 ++ new0) c = ext1 ++ new1 ∧
      List.Forall₂ (fun b e => ∃ t, e = b ++ t) ext0 ext1 := by
  simp only [placeCut]
  set rs := (((ext0 ++ new0)).map (getBinRemainder lumberLen)).filter
    (fun v => decide (c.value ≤ v)) with hrsdef
  by_cases hemp : rs.isEmpty
  · rw [if_pos hemp]
    exact ⟨ext0, new0 ++ [[c]], (List.append_assoc _ _ _),
      List.forall₂_same.mpr (fun b _ => ⟨[], (List.append_nil b).symm⟩)⟩
  · rw [if_neg hemp]
    refine ⟨ext0.map
        (fun b => if getBinRemainder lumberLen b = listMin rs then b ++ [c] else b),
      new0.map
        (fun b => if getBinRemainder lumberLen b = listMin rs then b ++ [c] else b),
      List.map_append _ _ _, ?_⟩
    rw [List.forall₂_map_right_iff]
    apply List.forall₂_same.mpr
    intro b _
    by_cases hif : getBinRemainder lumberLen b = listMin rs
    · exact ⟨[c], by rw [if_pos hif]⟩
    · exact ⟨[], by rw [if_neg hif, List.append_nil]⟩

theorem foldl_placeCut_extends (lumberLen : ℚ) :
    ∀ (cs : List Cut) (ext0 new0 : List Bin),
      ∃ ext newBins,
        cs.foldl (placeCut lumberLen) (ext0 ++ new0) = ext ++ newBins ∧
        List.Forall₂ (fun b e => ∃ t, e = b ++ t) ext0 ext := by
  intro cs
  induction cs with
  | nil =>
    intro ext0 new0
    exact ⟨ext0, new0, rfl,
      List.forall₂_same.mpr (fun b _ => ⟨[], (List.append_nil b).symm⟩)⟩
  | cons c cs ih =>
    intro ext0 new0
    obtain ⟨ext1, new1, heq1, hf1⟩ := placeCut_split lumberLen ext0 new0 c
    obtain ⟨ext2, new2, heq2, hf2⟩ := ih ext1 new1
    refine ⟨ext2, new2, ?_, forall₂_ext_trans hf1 hf2⟩
    rw [List.foldl_cons, heq1, heq2]

/-- C10: the list returned by `solveCuts` is the existing bin list extended
in place: every pre-existing bin reappears at its position with zero or more
cuts appended to it, and any new bins are pushed after them.  (JavaScript
arrays are passed by reference; `bins[i].push` and `bins.push` mutate the
caller's `existingBins` object, and the same object is returned, so the
caller's list aliases this extension after the call.) -/
theorem pack_extends_existing_bins (cuts : List Cut) (lumberLen : ℚ)
    (bins : List Bin) :
    ∃ ext newBins, solveCuts cuts lumberLen bins = ext ++ newBins ∧
      List.Forall₂ (fun b e => ∃ t, e = b ++ t) bins ext := by
  have h := foldl_placeCut_extends lumberLen (sortCutsDesc cuts) bins []
  rw [List.append_nil] at h
  exact h

/-! ## Part tags do not influence the flat strategy's packing -/

theorem vmap_placeCut (lumberLen : ℚ) (bins : List Bin) (c : Cut) :
    (placeCut lumberLen bins c).map (List.map Cut.value) =
      placeVals lumberLen (bins.map (List.map Cut.value)) c.value := by
  simp only [placeCut, placeVals, getBinRemainder, sumCutList, List.map_map]
  have hgbr : List.map (getBinRemainder lumberLen) bins =
      List.map (fun b : Bin => lumberLen - sumList (List.map Cut.value b)) bins := rfl
  have hcomp : List.map ((fun b : List ℚ => lumberLen - sumList b) ∘ List.map Cut.value)
        bins =
      List.map (fun b : Bin => lumberLen - sumList (List.map Cut.value b)) bins := rfl
  rw [hgbr, hcomp]
  set rs := (bins.map (fun b : Bin => lumberLen - sumList (List.map Cut.value b))).filter
    (fun v => decide (c.value ≤ v)) with hrs
  by_cases hemp : rs.isEmpty
  · rw [if_pos hemp, if_pos hemp]
    simp
  · rw [if_neg hemp, if_neg hemp]
    rw [List.map_map]
    apply List.map_congr_left
    intro b _
    simp only [Function.comp]
    by_cases hif : lumberLen - sumList (List.map Cut.value b) = listMin rs
    · rw [if_pos hif, if_pos hif]
      simp
    · rw [if_neg hif, if_neg hif]

theorem vmap_foldl (lumberLen : ℚ) :
    ∀ (cs : List Cut) (bins : List Bin),
      (cs.foldl (placeCut lumberLen) bins).map (List.map Cut.value) =
        (cs.map Cut.value).foldl (placeVals lumberLen)
          (bins.map (List.map Cut.value)) := by
  intro cs
  induction cs with
  | nil => intro bins; rfl
  | cons c cs ih =>
    intro bins
    simp only [List.foldl_cons, List.map_cons]
    rw [ih, vmap_placeCut]

theorem vmap_sortCutsDesc (cuts : List Cut) :
    (sortCutsDesc cuts).map Cut.value =
      ((cuts.map Cut.value).mergeSort (fun a b => decide (a ≤ b))).reverse := by
  rw [sortCutsDesc, List.map_reverse]
  congr 1
  exact List.map_mergeSort (fun a _ b _ => rfl)

theorem mergeSort_vals_eq {l1 l2 : List ℚ} (h : l1.Perm l2) :
    l1.mergeSort (fun a b => decide (a ≤ b)) =
      l2.mergeSort (fun a b => decide (a ≤ b)) := by
  haveI : IsAntisymm ℚ (fun a b : ℚ => a ≤ b) := ⟨fun a b h1 h2 => le_antisymm h1 h2⟩
  have htrans : ∀ a b c : ℚ, decide (a ≤ b) = true →
      decide (b ≤ c) = true → decide (a ≤ c) = true := by
    intro a b c hab hbc
    simp only [decide_eq_true_eq] at hab hbc ⊢
    exact le_trans hab hbc
  have htotal : ∀ a b : ℚ, (decide (a ≤ b) || decide (b ≤ a)) = true := by
    intro a b
    simp only [Bool.or_eq_true, decide_eq_true_eq]
    exact le_total a b
  have hs1 : List.Sorted (fun a b : ℚ => a ≤ b)
      (l1.mergeSort (fun a b => decide (a ≤ b))) :=
    (List.sorted_mergeSort htrans htotal l1).imp (fun hab => by simpa using hab)
  have hs2 : List.Sorted (fun a b : ℚ => a ≤ b)
      (l2.mergeSort (fun a b => decide (a ≤ b))) :=
    (List.sorted_mergeSort htrans htotal l2).imp (fun hab => by simpa using hab)
  have hp : (l1.mergeSort (fun a b => decide (a ≤ b))).Perm
      (l2.mergeSort (fun a b => decide (a ≤ b))) :=
    (List.mergeSort_perm l1 _).trans (h.trans (List.mergeSort_perm l2 _).symm)
  exact List.eq_of_perm_of_sorted hp hs1 hs2

/-- C9: the flat strategy's packing decisions depend only on the multiset of
cut lengths: two requests with the same usable length whose flattened length
multisets agree produce the same partition of lengths into bins, whatever
their part tags. -/
theorem naive_tags_do_not_affect_packing (r1 r2 : CutRequest)
    (hL : r1.effectiveLumberLen = r2.effectiveLumberLen)
    (hvals : (allValues r1).Perm (allValues r2)) :
    (naiveSolve r1).map (List.map Cut.value) =
      (naiveSolve r2).map (List.map Cut.value) := by
  have key : (sortCutsDesc ((naiveFlatten r1).reverse)).map Cut.value =
      (sortCutsDesc ((naiveFlatten r2).reverse)).map Cut.value := by
    rw [vmap_sortCutsDesc, vmap_sortCutsDesc]
    congr 1
    apply mergeSort_vals_eq
    have h1 : ((naiveFlatten r1).reverse.map Cut.value).Perm (allValues r1) := by
      rw [List.map_reverse]
      exact List.reverse_perm _
    have h2 : ((naiveFlatten r2).reverse.map Cut.value).Perm (allValues r2) := by
      rw [List.map_reverse]
      exact List.reverse_perm _
    exact h1.trans (hvals.trans h2.symm)
  show (((sortCutsDesc ((naiveFlatten r1).reverse)).foldl
      (placeCut r1.effectiveLumberLen) [[]]).map (List.map Cut.value)) =
    (((sortCutsDesc ((naiveFlatten r2).reverse)).foldl
      (placeCut r2.effectiveLumberLen) [[]]).map (List.map Cut.value))
  rw [vmap_foldl, vmap_foldl, key, hL]

/-- Witness for `naive_tags_do_not_affect_packing`: two requests with the
same lengths 5 and 3 but different part names and orders pack into the same
length partition. -/
theorem naive_tags_do_not_affect_packing_witness :
    (allValues ⟨10, [("A", [5]), ("B", [3])], []⟩).Perm
        (allValues ⟨10, [("X", [3]), ("Y", [5])], []⟩) ∧
      (naiveSolve ⟨10, [("A", [5]), ("B", [3])], []⟩).map (List.map Cut.value) =
        (naiveSolve ⟨10, [("X", [3]), ("Y", [5])], []⟩).map (List.map Cut.value) :=
  ⟨by with_unfolding_all decide,
    naive_tags_do_not_affect_packing
      ⟨10, [("A", [5]), ("B", [3])], []⟩ ⟨10, [("X", [3]), ("Y", [5])], []⟩
      rfl (by with_unfolding_all decide)⟩

end LumberCuts
